import Mathlib

/-!
Verification of the serde_rosmsg codec (src/ser.rs, src/de.rs, src/error.rs).

The Rust crate serializes serde data structures into the ROSMSG wire format.
We shallow-embed the encoder and decoder over byte lists (`List Nat`, each
entry a byte value). Rust machine integers are modelled as `Nat`/`Int` with
explicit modular truncation where the source performs an `as` cast, and the
serde structural categories (scalar, text, tuple/struct/fixed array,
variable-length sequence, string map, char, Option, enum variants) become the
constructors of `Value` (encoder side) and `Ty` (the decode target shape).
-/

namespace Rosmsg

/-- Error taxonomy, from src/error.rs (`ErrorKind`) plus the raw I O error
that `from_reader` propagates from its very first `read_u32` call.
`variableArraySize` models `ErrorKind::VariableArraySizeAnnotation`. -/
inductive Err where
  | ioError
  | endOfBuffer
  | badStringData
  | badMapEntry
  | unsupportedCharType
  | unsupportedEnumType
  | variableArraySize
deriving DecidableEq, Repr

/-- Structural categories of serde values that reach the serializer in
src/ser.rs. Text is carried as its UTF-8 bytes. `f32`/`f64` carry the raw
IEEE bit pattern (the source writes exactly those bits little-endian).
`tuple` covers tuples, tuple structs, structs and fixed-size arrays: all
four Rust entry points delegate to `serialize_seq_fixed_size`. `seq` carries
the `Option<usize>` length argument of `serialize_seq`. Map entries are
(key bytes, value bytes) pairs of strings. -/
inductive Value where
  | bool (b : Bool)
  | u8 (n : Nat)
  | u16 (n : Nat)
  | u32 (n : Nat)
  | u64 (n : Nat)
  | i8 (n : Int)
  | i16 (n : Int)
  | i32 (n : Int)
  | i64 (n : Int)
  | f32 (bits : Nat)
  | f64 (bits : Nat)
  | str (s : List Nat)
  | char (c : Nat)
  | none
  | some (v : Value)
  | variant
  | tuple (vs : List Value)
  | seq (len : Option Nat) (vs : List Value)
  | map (es : List (List Nat × List Nat))

/-- Decode target shapes, mirroring the `Deserializer` trait methods that
src/de.rs implements. `tuple` covers `deserialize_tuple`,
`deserialize_struct` and `deserialize_tuple_struct` (all drive a
`TupleVisitor` for a fixed list of member types) as well as fixed-size
arrays. `seq` is `deserialize_seq` (Vec): count-prefixed homogeneous
elements. `map` is the `String -> String` map path. -/
inductive Ty where
  | bool
  | u8
  | u16
  | u32
  | u64
  | i8
  | i16
  | i32
  | i64
  | f32
  | f64
  | str
  | char
  | option (t : Ty)
  | enum
  | tuple (ts : List Ty)
  | seq (t : Ty)
  | map

/-- Little-endian byte encoding of `n` into exactly `w` bytes, truncating
higher bits: this is what `byteorder::WriteBytesExt::write_uNN::<LittleEndian>`
emits, and the truncation matches the `len as u32` cast in
`Serializer::write_size`. -/
def leBytes : Nat → Nat → List Nat
  | 0, _ => []
  | w + 1, n => n % 256 :: leBytes w (n / 256)

/-- Little-endian read of a byte list, as `byteorder::ReadBytesExt::read_uNN`. -/
def fromLE : List Nat → Nat
  | [] => 0
  | b :: bs => b + 256 * fromLE bs

/-- Two's-complement bit pattern (as a Nat) of the signed integer `n` at
width `w` bytes: the bytes `write_iNN::<LittleEndian>` emits are the
little-endian bytes of this number. -/
def encodeSignedNat (w : Nat) (n : Int) : Nat :=
  (n % ((2 : Int) ^ (8 * w))).toNat

/-- Signed reinterpretation of a `w`-byte unsigned value, as performed by
`read_iNN::<LittleEndian>`. -/
def decodeSigned (w : Nat) (m : Nat) : Int :=
  if m < 2 ^ (8 * w - 1) then (m : Int) else (m : Int) - (2 : Int) ^ (8 * w)

/-- Byte layout of map entries produced by `CompoundMap` in src/ser.rs:
for each (key, value) pair, `serialize_key` strips the key string's length
prefix and appends `=` (byte 61), `serialize_value` strips the value
string's length prefix and appends the whole entry length-prefixed into the
internal buffer. -/
def encodeMapEntries : List (List Nat × List Nat) → List Nat
  | [] => []
  | (k, v) :: es =>
    let item := k ++ 61 :: v
    leBytes 4 item.length ++ item ++ encodeMapEntries es

mutual

/-- The serializer of src/ser.rs, one equation per `Serializer` trait
method. Aggregates (`Compound`) buffer their members and flush through
`serialize_bytes`, which writes a 4-byte little-endian length prefix
followed by the buffer. `serialize_seq` first writes the `u32` count into
the buffer (erroring on `None`), and `end` wraps the buffer the same way. -/
def serializeValue : Value → Except Err (List Nat)
  | .bool b => .ok [if b then 1 else 0]
  | .u8 n => .ok (leBytes 1 n)
  | .u16 n => .ok (leBytes 2 n)
  | .u32 n => .ok (leBytes 4 n)
  | .u64 n => .ok (leBytes 8 n)
  | .i8 n => .ok (leBytes 1 (encodeSignedNat 1 n))
  | .i16 n => .ok (leBytes 2 (encodeSignedNat 2 n))
  | .i32 n => .ok (leBytes 4 (encodeSignedNat 4 n))
  | .i64 n => .ok (leBytes 8 (encodeSignedNat 8 n))
  | .f32 bits => .ok (leBytes 4 bits)
  | .f64 bits => .ok (leBytes 8 bits)
  | .str s => .ok (leBytes 4 s.length ++ s)
  | .char _ => .error .unsupportedCharType
  | .none => .error .unsupportedEnumType
  | .some _ => .error .unsupportedEnumType
  | .variant => .error .unsupportedEnumType
  | .tuple vs =>
    match serializeList vs with
    | .error e => .error e
    | .ok buf => .ok (leBytes 4 buf.length ++ buf)
  | .seq Option.none _ => .error .variableArraySize
  | .seq (Option.some n) vs =>
    match serializeList vs with
    | .error e => .error e
    | .ok buf => .ok (leBytes 4 (4 + buf.length) ++ (leBytes 4 n ++ buf))
  | .map es =>
    .ok (leBytes 4 (encodeMapEntries es).length ++ encodeMapEntries es)

/-- Members of a `Compound` are serialized in order into its buffer;
the first failure aborts (the `?` operator in `serialize_element`). -/
def serializeList : List Value → Except Err (List Nat)
  | [] => .ok []
  | v :: vs =>
    match serializeValue v with
    | .error e => .error e
    | .ok b =>
      match serializeList vs with
      | .error e => .error e
      | .ok bs => .ok (b ++ bs)

end

/-- `to_writer` of src/ser.rs: serialize directly into the sink after its
existing content, adding nothing of its own. -/
def to_writer (w : List Nat) (v : Value) : Except Err (List Nat) :=
  match serializeValue v with
  | .error e => .error e
  | .ok bs => .ok (w ++ bs)

/-- `to_vec` of src/ser.rs: `to_writer` into a fresh buffer. -/
def to_vec (v : Value) : Except Err (List Nat) :=
  to_writer [] v

/-- Reading `k` bytes from a cursor: succeeds with the bytes and the rest
exactly when at least `k` bytes remain (`read_exact` / the fixed-width
`read_uNN` readers on an `io::Cursor`). -/
def readExact (k : Nat) (input : List Nat) : Option (List Nat × List Nat) :=
  if k ≤ input.length then Option.some (input.take k, input.drop k) else Option.none

/-- Continuation byte test for UTF-8 (0x80 to 0xBF). -/
def isCont (b : Nat) : Bool := 128 ≤ b && b ≤ 191

/-- UTF-8 validity of a byte list, as checked by `String::from_utf8` in
`Deserializer::get_string`: precise UTF-8 including rejection of overlong
encodings (0xE0/0xF0 second-byte restrictions), surrogates (0xED) and
values above U+10FFFF (0xF4). -/
def validUtf8 : List Nat → Bool
  | [] => true
  | b :: rest =>
    if b ≤ 127 then validUtf8 rest
    else if 194 ≤ b && b ≤ 223 then
      match rest with
      | c1 :: rest1 => isCont c1 && validUtf8 rest1
      | [] => false
    else if b == 224 then
      match rest with
      | c1 :: c2 :: rest2 => (160 ≤ c1 && c1 ≤ 191) && isCont c2 && validUtf8 rest2
      | _ => false
    else if (225 ≤ b && b ≤ 236) || (238 ≤ b && b ≤ 239) then
      match rest with
      | c1 :: c2 :: rest2 => isCont c1 && isCont c2 && validUtf8 rest2
      | _ => false
    else if b == 237 then
      match rest with
      | c1 :: c2 :: rest2 => (128 ≤ c1 && c1 ≤ 159) && isCont c2 && validUtf8 rest2
      | _ => false
    else if b == 240 then
      match rest with
      | c1 :: c2 :: c3 :: rest3 =>
        (144 ≤ c1 && c1 ≤ 191) && isCont c2 && isCont c3 && validUtf8 rest3
      | _ => false
    else if 241 ≤ b && b ≤ 243 then
      match rest with
      | c1 :: c2 :: c3 :: rest3 => isCont c1 && isCont c2 && isCont c3 && validUtf8 rest3
      | _ => false
    else if b == 244 then
      match rest with
      | c1 :: c2 :: c3 :: rest3 =>
        (128 ≤ c1 && c1 ≤ 143) && isCont c2 && isCont c3 && validUtf8 rest3
      | _ => false
    else false

/-- `Deserializer::get_string` of src/de.rs: read a 4-byte little-endian
length, read that many bytes (`EndOfBuffer` if the source is exhausted at
either step), validate UTF-8 (`BadStringData`), and return the total
consumed byte count `length + 4` together with the text bytes and the
remaining input. -/
def getString (input : List Nat) : Except Err (Nat × List Nat × List Nat) :=
  match readExact 4 input with
  | Option.none => .error .endOfBuffer
  | Option.some (hdr, rest) =>
    match readExact (fromLE hdr) rest with
    | Option.none => .error .endOfBuffer
    | Option.some (s, rest2) =>
      if validUtf8 s then .ok (fromLE hdr + 4, s, rest2) else .error .badStringData

/-- Split a byte list at the first occurrence of `sep`, the byte-level view
of `str::splitn(2, sep)`: `some (before, after)` when `sep` occurs, `none`
otherwise. -/
def splitFirst (sep : Nat) : List Nat → Option (List Nat × List Nat)
  | [] => Option.none
  | b :: rest =>
    if b == sep then Option.some ([], rest)
    else
      match splitFirst sep rest with
      | Option.some (k, v) => Option.some (b :: k, v)
      | Option.none => Option.none

/-- `MapVisitor::pop_item` of src/de.rs: read one length-prefixed entry via
`get_string`, fail with `BadMapEntry` if its total consumed length `len`
exceeds the remaining budget `size`, subtract it from the budget, and split
the entry on the first `=` (byte 61), failing with `BadMapEntry` when no
`=` is present. Returns the new budget, key bytes, value bytes and the
remaining input. -/
def popItem (size : Nat) (input : List Nat) :
    Except Err (Nat × List Nat × List Nat × List Nat) :=
  match getString input with
  | .error e => .error e
  | .ok (len, data, rest) =>
    if size < len then .error .badMapEntry
    else
      match splitFirst 61 data with
      | Option.some (k, v) => .ok (size - len, k, v, rest)
      | Option.none => .error .badMapEntry

/-- `MapVisitor::value_into_bytes` followed by the fresh sub-`Deserializer`
in `visit_key_seed`/`visit_value_seed`: the split-off key or value bytes
are re-serialized as a string and decoded again by `deserialize_string`. -/
def stringSubDecode (s : List Nat) : Except Err (List Nat) :=
  match getString (leBytes 4 s.length ++ s) with
  | .error e => .error e
  | .ok (_, data, _) => .ok data

/-- The map-decoding loop driven by `MapVisitor::visit_key_seed` /
`visit_value_seed`: while the remaining budget `size` is positive, pop one
entry and sub-decode its key and value. The extra `fuel` argument makes the
recursion structural; every successful `popItem` shrinks the budget by at
least 4, so any `fuel` at least the initial budget is enough, and
`decodeMapLoop_fuel` below proves the result does not depend on the choice
(the fuel-exhausted branch is unreachable from `decodeMapEntries`). -/
def decodeMapLoop : Nat → Nat → List Nat →
    Except Err (List (List Nat × List Nat) × List Nat)
  | _, 0, input => .ok ([], input)
  | 0, _ + 1, _ => .error .badMapEntry
  | fuel + 1, size + 1, input =>
    match popItem (size + 1) input with
    | .error e => .error e
    | .ok (size2, k, v, rest) =>
      match stringSubDecode k with
      | .error e => .error e
      | .ok k2 =>
        match stringSubDecode v with
        | .error e => .error e
        | .ok v2 =>
          match decodeMapLoop fuel size2 rest with
          | .error e => .error e
          | .ok (es, rest2) => .ok ((k2, v2) :: es, rest2)

/-- `deserialize_map`: loop over entries with the deserializer's `length`
field as the initial remaining-byte budget. -/
def decodeMapEntries (size : Nat) (input : List Nat) :
    Except Err (List (List Nat × List Nat) × List Nat) :=
  decodeMapLoop size size input

mutual

/-- The deserializer of src/de.rs, one equation per `Deserializer` trait
method, driven by the target shape. `L` is the `length` field set at
construction from the envelope; the source only ever reads it in
`deserialize_map`. Scalars read their fixed width (`EndOfBuffer` when the
input is exhausted), `bool` maps any nonzero byte to `true`, strings go
through `get_string`, tuples/structs/fixed arrays decode their members in
order with no count or length read, sequences read a 4-byte count then that
many elements, and `char`/`Option`/enums are rejected immediately. -/
def deserializeTy : Ty → Nat → List Nat → Except Err (Value × List Nat)
  | .bool, _, input =>
    match input with
    | [] => .error .endOfBuffer
    | b :: rest => .ok (.bool (b != 0), rest)
  | .u8, _, input =>
    match input with
    | [] => .error .endOfBuffer
    | b :: rest => .ok (.u8 b, rest)
  | .u16, _, input =>
    match readExact 2 input with
    | Option.none => .error .endOfBuffer
    | Option.some (bs, rest) => .ok (.u16 (fromLE bs), rest)
  | .u32, _, input =>
    match readExact 4 input with
    | Option.none => .error .endOfBuffer
    | Option.some (bs, rest) => .ok (.u32 (fromLE bs), rest)
  | .u64, _, input =>
    match readExact 8 input with
    | Option.none => .error .endOfBuffer
    | Option.some (bs, rest) => .ok (.u64 (fromLE bs), rest)
  | .i8, _, input =>
    match input with
    | [] => .error .endOfBuffer
    | b :: rest => .ok (.i8 (decodeSigned 1 b), rest)
  | .i16, _, input =>
    match readExact 2 input with
    | Option.none => .error .endOfBuffer
    | Option.some (bs, rest) => .ok (.i16 (decodeSigned 2 (fromLE bs)), rest)
  | .i32, _, input =>
    match readExact 4 input with
    | Option.none => .error .endOfBuffer
    | Option.some (bs, rest) => .ok (.i32 (decodeSigned 4 (fromLE bs)), rest)
  | .i64, _, input =>
    match readExact 8 input with
    | Option.none => .error .endOfBuffer
    | Option.some (bs, rest) => .ok (.i64 (decodeSigned 8 (fromLE bs)), rest)
  | .f32, _, input =>
    match readExact 4 input with
    | Option.none => .error .endOfBuffer
    | Option.some (bs, rest) => .ok (.f32 (fromLE bs), rest)
  | .f64, _, input =>
    match readExact 8 input with
    | Option.none => .error .endOfBuffer
    | Option.some (bs, rest) => .ok (.f64 (fromLE bs), rest)
  | .str, _, input =>
    match getString input with
    | .error e => .error e
    | .ok (_, s, rest) => .ok (.str s, rest)
  | .char, _, _ => .error .unsupportedCharType
  | .option _, _, _ => .error .unsupportedEnumType
  | .enum, _, _ => .error .unsupportedEnumType
  | .tuple ts, L, input =>
    match deserializeFields ts L input with
    | .error e => .error e
    | .ok (vs, rest) => .ok (.tuple vs, rest)
  | .seq t, L, input =>
    match readExact 4 input with
    | Option.none => .error .endOfBuffer
    | Option.some (hdr, rest) =>
      match deserializeElems t (fromLE hdr) L rest with
      | .error e => .error e
      | .ok (vs, rest2) => .ok (.seq (Option.some (fromLE hdr)) vs, rest2)
  | .map, L, input =>
    match decodeMapEntries L input with
    | .error e => .error e
    | .ok (es, rest) => .ok (.map es, rest)
termination_by t _ _ => (sizeOf t, 0)

/-- `TupleVisitor`: decode the members of a fixed-arity aggregate in
order; the visitor asks exactly once per member. -/
def deserializeFields : List Ty → Nat → List Nat → Except Err (List Value × List Nat)
  | [], _, input => .ok ([], input)
  | t :: ts, L, input =>
    match deserializeTy t L input with
    | .error e => .error e
    | .ok (v, rest) =>
      match deserializeFields ts L rest with
      | .error e => .error e
      | .ok (vs, rest2) => .ok (v :: vs, rest2)
termination_by ts _ _ => (sizeOf ts, 0)

/-- `SeqVisitor` with a remaining-elements counter: decode exactly `n`
elements of type `t`, then report end of sequence. -/
def deserializeElems : Ty → Nat → Nat → List Nat → Except Err (List Value × List Nat)
  | _, 0, _, input => .ok ([], input)
  | t, n + 1, L, input =>
    match deserializeTy t L input with
    | .error e => .error e
    | .ok (v, rest) =>
      match deserializeElems t n L rest with
      | .error e => .error e
      | .ok (vs, rest2) => .ok (v :: vs, rest2)
termination_by t n _ _ => (sizeOf t, n + 1)

end

/-- `from_reader` / `from_slice` of src/de.rs: read one leading 4-byte
little-endian length (any failure here is the raw propagated I O error),
then construct a `Deserializer` whose `length` field is that value and
decode the target shape from the remaining bytes. The decoded value is
returned; remaining bytes are not inspected. -/
def from_slice (t : Ty) (bytes : List Nat) : Except Err Value :=
  match readExact 4 bytes with
  | Option.none => .error .ioError
  | Option.some (hdr, rest) =>
    match deserializeTy t (fromLE hdr) rest with
    | .error e => .error e
    | .ok (v, _) => .ok v

/-- The decode target shape corresponding to a flat (scalar or text)
member value; defaults to `u8` on aggregate values, which the flatness
predicates below rule out. -/
def memberTy : Value → Ty
  | .bool _ => .bool
  | .u8 _ => .u8
  | .u16 _ => .u16
  | .u32 _ => .u32
  | .u64 _ => .u64
  | .i8 _ => .i8
  | .i16 _ => .i16
  | .i32 _ => .i32
  | .i64 _ => .i64
  | .f32 _ => .f32
  | .f64 _ => .f64
  | .str _ => .str
  | _ => .u8

/-- Whether a value is a flat member of the given decode shape. -/
def memberTyIs : Ty → Value → Bool
  | .bool, .bool _ => true
  | .u8, .u8 _ => true
  | .u16, .u16 _ => true
  | .u32, .u32 _ => true
  | .u64, .u64 _ => true
  | .i8, .i8 _ => true
  | .i16, .i16 _ => true
  | .i32, .i32 _ => true
  | .i64, .i64 _ => true
  | .f32, .f32 _ => true
  | .f64, .f64 _ => true
  | .str, .str _ => true
  | _, _ => false

/-- A scalar or text value within the range of its Rust type (machine
integers are bounded by their width; text is valid UTF-8 with a length
expressible in the `u32` length prefix). These bounds hold for every value
a Rust caller can construct; they become explicit hypotheses here because
the embedding carries unbounded `Nat`/`Int`. -/
def memberOk : Value → Bool
  | .bool _ => true
  | .u8 n => decide (n < 2 ^ 8)
  | .u16 n => decide (n < 2 ^ 16)
  | .u32 n => decide (n < 2 ^ 32)
  | .u64 n => decide (n < 2 ^ 64)
  | .i8 n => decide (-(2 ^ 7) ≤ n ∧ n < 2 ^ 7)
  | .i16 n => decide (-(2 ^ 15) ≤ n ∧ n < 2 ^ 15)
  | .i32 n => decide (-(2 ^ 31) ≤ n ∧ n < 2 ^ 31)
  | .i64 n => decide (-(2 ^ 63) ≤ n ∧ n < 2 ^ 63)
  | .f32 b => decide (b < 2 ^ 32)
  | .f64 b => decide (b < 2 ^ 64)
  | .str s => validUtf8 s && decide (s.length < 2 ^ 32)
  | _ => false

/-- A well-formed string map entry as produced by Rust `String` keys and
values: all three byte lists involved are valid UTF-8 (the key and value
are `String`s, and the concatenation around `=` is what `get_string`
validates), the key contains no `=` (the documented safety condition for
the key position), and the entry length fits the `u32` length prefix. -/
def entryOk : List Nat × List Nat → Bool
  | (k, v) =>
    validUtf8 k && validUtf8 v && validUtf8 (k ++ 61 :: v) &&
    !(k.contains 61) && decide (k.length + 1 + v.length < 2 ^ 32)

/-- Values whose encoding round-trips through `from_slice` after `to_vec`:
a top-level fixed-arity aggregate of flat members, a top-level sequence of
flat members of one common shape with its count annotation equal to the
element count, or a top-level string map of well-formed entries whose
encoding fits the `u32` envelope. -/
def topOk : Value → Bool
  | .tuple vs => vs.all memberOk
  | .seq o vs =>
    decide (o = Option.some vs.length) && decide (vs.length < 2 ^ 32) &&
    vs.all memberOk && vs.all (memberTyIs (memberTy (vs.headD (.u8 0))))
  | .map es => es.all entryOk && decide ((encodeMapEntries es).length < 2 ^ 32)
  | _ => false

/-- The decode target shape matching a value's encoding. -/
def tyOf : Value → Ty
  | .tuple vs => .tuple (vs.map memberTy)
  | .seq _ vs => .seq (memberTy (vs.headD (.u8 0)))
  | .map _ => .map
  | v => memberTy v

mutual

/-- Decode shapes that contain no map anywhere: for these the
deserializer's `length` field is never read. -/
def mapFree : Ty → Bool
  | .map => false
  | .tuple ts => mapFreeList ts
  | .seq t => mapFree t
  | .option t => mapFree t
  | _ => true

/-- `mapFree` on every member shape of a tuple. -/
def mapFreeList : List Ty → Bool
  | [] => true
  | t :: ts => mapFree t && mapFreeList ts

end

/-! Helper lemmas about the primitive byte codecs. -/

theorem leBytes_length (w n : Nat) : (leBytes w n).length = w := by
  induction w generalizing n with
  | zero => rfl
  | succ w ih => simp [leBytes, ih]

theorem fromLE_leBytes (w n : Nat) (h : n < 256 ^ w) : fromLE (leBytes w n) = n := by
  induction w generalizing n with
  | zero =>
    have hn : n = 0 := by simpa using h
    simp [leBytes, fromLE, hn]
  | succ w ih =>
    have hd : n / 256 < 256 ^ w := by
      rw [Nat.div_lt_iff_lt_mul (by norm_num)]
      calc n < 256 ^ (w + 1) := h
        _ = 256 ^ w * 256 := by ring
    simp [leBytes, fromLE, ih (n / 256) hd]
    omega

theorem leBytes_getD (w n i : Nat) (h : n < 256 ^ w) :
    (leBytes w n).getD i 0 = n / 256 ^ i % 256 := by
  induction w generalizing n i with
  | zero =>
    have hn : n = 0 := by simpa using h
    simp [leBytes, hn]
  | succ w ih =>
    cases i with
    | zero => simp [leBytes]
    | succ i =>
      have hd : n / 256 < 256 ^ w := by
        rw [Nat.div_lt_iff_lt_mul (by norm_num)]
        calc n < 256 ^ (w + 1) := h
          _ = 256 ^ w * 256 := by ring
      simp only [leBytes, List.getD_cons_succ]
      rw [ih (n / 256) i hd, Nat.div_div_eq_div_mul]
      congr 2
      rw [pow_succ]
      ring

theorem encodeSignedNat_lt (w : Nat) (n : Int) : encodeSignedNat w n < 256 ^ w := by
  have h2 : ((256 : Int)) ^ w = 2 ^ (8 * w) := by
    rw [pow_mul]; norm_num
  have hlt : n % ((2 : Int) ^ (8 * w)) < 2 ^ (8 * w) := Int.emod_lt_of_pos n (by positivity)
  have hnn : (0 : Int) ≤ n % ((2 : Int) ^ (8 * w)) := Int.emod_nonneg n (by positivity)
  unfold encodeSignedNat
  have hcast : (((n % ((2 : Int) ^ (8 * w))).toNat : Int)) < ((256 ^ w : Nat) : Int) := by
    rw [Int.toNat_of_nonneg hnn]
    push_cast
    rw [h2]
    exact hlt
  exact_mod_cast hcast

theorem decodeSigned_encodeSignedNat (w : Nat) (n : Int)
    (h1 : -(2 ^ (8 * w - 1)) ≤ n) (h2 : n < 2 ^ (8 * w - 1)) (hw : 1 ≤ w) :
    decodeSigned w (encodeSignedNat w n) = n := by
  have hdouble : (2 : Int) ^ (8 * w) = 2 ^ (8 * w - 1) * 2 := by
    rw [← pow_succ]
    congr 1
    omega
  have hApos : (0 : Int) < 2 ^ (8 * w - 1) := by positivity
  have hcastm : ((encodeSignedNat w n : Nat) : Int) = n % ((2 : Int) ^ (8 * w)) :=
    Int.toNat_of_nonneg (Int.emod_nonneg n (by positivity))
  have hself : (n + 2 ^ (8 * w)) % ((2 : Int) ^ (8 * w)) = n % 2 ^ (8 * w) := by
    simp
  rcases le_or_lt 0 n with hn | hn
  · have hmod : n % ((2 : Int) ^ (8 * w)) = n := Int.emod_eq_of_lt hn (by omega)
    have hmNat : ((encodeSignedNat w n : Nat) : Int) = n := by rw [hcastm, hmod]
    have hcond : encodeSignedNat w n < 2 ^ (8 * w - 1) := by
      have hx : ((encodeSignedNat w n : Nat) : Int) < ((2 ^ (8 * w - 1) : Nat) : Int) := by
        rw [hmNat]; push_cast; omega
      exact_mod_cast hx
    unfold decodeSigned
    rw [if_pos hcond]
    exact hmNat
  · have hmod : n % ((2 : Int) ^ (8 * w)) = n + 2 ^ (8 * w) := by
      rw [← hself]
      exact Int.emod_eq_of_lt (by omega) (by omega)
    have hmNat : ((encodeSignedNat w n : Nat) : Int) = n + 2 ^ (8 * w) := by rw [hcastm, hmod]
    have hcond : ¬ encodeSignedNat w n < 2 ^ (8 * w - 1) := by
      intro hc
      have hx : ((encodeSignedNat w n : Nat) : Int) < ((2 ^ (8 * w - 1) : Nat) : Int) := by
        exact_mod_cast hc
      rw [hmNat] at hx
      push_cast at hx
      omega
    unfold decodeSigned
    rw [if_neg hcond, hmNat]
    ring

theorem readExact_enc (k : Nat) (bs rest : List Nat) (h : bs.length = k) :
    readExact k (bs ++ rest) = Option.some (bs, rest) := by
  subst h
  simp [readExact, List.take_left, List.drop_left]

theorem readExact_append (k : Nat) (input extra a b : List Nat)
    (h : readExact k input = Option.some (a, b)) :
    readExact k (input ++ extra) = Option.some (a, b ++ extra) := by
  unfold readExact at *
  split at h
  · rename_i hle
    simp only [Option.some.injEq, Prod.mk.injEq] at h
    obtain ⟨ha, hb⟩ := h
    have hle2 : k ≤ (input ++ extra).length := by simp; omega
    rw [if_pos hle2]
    rw [List.take_append_of_le_length hle, List.drop_append_of_le_length hle]
    simp [ha, hb]
  · exact absurd h (by simp)


theorem getString_enc (s rest : List Nat) (hlen : s.length < 2 ^ 32)
    (hv : validUtf8 s = true) :
    getString (leBytes 4 s.length ++ s ++ rest) = .ok (s.length + 4, s, rest) := by
  have h256 : s.length < 256 ^ 4 := by norm_num at hlen ⊢; omega
  simp only [getString, List.append_assoc,
    readExact_enc 4 (leBytes 4 s.length) (s ++ rest) (leBytes_length 4 _),
    fromLE_leBytes 4 s.length h256,
    readExact_enc s.length s rest rfl, hv, if_true]

theorem getString_append (input extra : List Nat) (len : Nat) (data rest : List Nat)
    (h : getString input = .ok (len, data, rest)) :
    getString (input ++ extra) = .ok (len, data, rest ++ extra) := by
  cases h1 : readExact 4 input with
  | none => simp [getString, h1] at h
  | some p =>
    obtain ⟨hdr, r1⟩ := p
    cases h2 : readExact (fromLE hdr) r1 with
    | none => simp [getString, h1, h2] at h
    | some q =>
      obtain ⟨s, r2⟩ := q
      simp only [getString, h1, h2] at h
      simp only [getString, readExact_append 4 input extra hdr r1 h1,
        readExact_append (fromLE hdr) r1 extra s r2 h2]
      split at h
      · rename_i hvu
        rw [if_pos hvu]
        simp only [Except.ok.injEq, Prod.mk.injEq] at h
        obtain ⟨hl, hs, hr⟩ := h
        subst hl; subst hs; subst hr
        rfl
      · exact absurd h (by simp)

theorem getString_len (input : List Nat) (len : Nat) (data rest : List Nat)
    (h : getString input = .ok (len, data, rest)) : 4 ≤ len := by
  cases h1 : readExact 4 input with
  | none => simp [getString, h1] at h
  | some p =>
    obtain ⟨hdr, r1⟩ := p
    cases h2 : readExact (fromLE hdr) r1 with
    | none => simp [getString, h1, h2] at h
    | some q =>
      obtain ⟨s, r2⟩ := q
      simp only [getString, h1, h2] at h
      split at h
      · simp only [Except.ok.injEq, Prod.mk.injEq] at h
        omega
      · exact absurd h (by simp)

theorem getString_err (input : List Nat) (e : Err)
    (h : getString input = .error e) : e = .endOfBuffer ∨ e = .badStringData := by
  cases h1 : readExact 4 input with
  | none =>
    simp only [getString, h1] at h
    simp at h
    exact Or.inl h.symm
  | some p =>
    obtain ⟨hdr, r1⟩ := p
    cases h2 : readExact (fromLE hdr) r1 with
    | none =>
      simp only [getString, h1, h2] at h
      simp at h
      exact Or.inl h.symm
    | some q =>
      obtain ⟨s, r2⟩ := q
      simp only [getString, h1, h2] at h
      split at h
      · exact absurd h (by simp)
      · simp at h
        exact Or.inr h.symm

theorem splitFirst_enc (sep : Nat) (k v : List Nat) (hk : ¬ sep ∈ k) :
    splitFirst sep (k ++ sep :: v) = Option.some (k, v) := by
  induction k with
  | nil => simp [splitFirst]
  | cons b k ih =>
    have hb : ¬ sep ∈ k := fun hm => hk (List.mem_cons_of_mem b hm)
    have hbne : (b == sep) = false := by
      refine beq_eq_false_iff_ne.mpr ?_
      intro hbe
      exact hk (by simp [hbe])
    simp [splitFirst, hbne, ih hb]

theorem splitFirst_none_iff (sep : Nat) (l : List Nat) :
    splitFirst sep l = Option.none ↔ ¬ sep ∈ l := by
  induction l with
  | nil => simp [splitFirst]
  | cons b rest ih =>
    by_cases hb : b = sep
    · subst hb
      simp [splitFirst]
    · have hbne : (b == sep) = false := beq_eq_false_iff_ne.mpr hb
      cases h : splitFirst sep rest with
      | none =>
        have hr := ih.mp h
        simp only [splitFirst, hbne, Bool.false_eq_true, if_false, h, List.mem_cons]
        simp [hr]
        exact fun he => hb he.symm
      | some p =>
        obtain ⟨k, v⟩ := p
        have hr : sep ∈ rest := by
          by_contra hns
          exact absurd ((ih.mpr hns).symm.trans h) (by simp)
        simp only [splitFirst, hbne, Bool.false_eq_true, if_false, h, List.mem_cons]
        simp [hr]

theorem splitFirst_some (sep : Nat) (l k v : List Nat)
    (h : splitFirst sep l = Option.some (k, v)) :
    l = k ++ sep :: v ∧ ¬ sep ∈ k := by
  induction l generalizing k v with
  | nil => exact absurd h (by simp [splitFirst])
  | cons b rest ih =>
    by_cases hb : b = sep
    · subst hb
      simp only [splitFirst, beq_self_eq_true, if_true, Option.some.injEq, Prod.mk.injEq] at h
      obtain ⟨hk, hv⟩ := h
      subst hk; subst hv
      simp
    · have hbne : (b == sep) = false := beq_eq_false_iff_ne.mpr hb
      simp only [splitFirst, hbne, Bool.false_eq_true, if_false] at h
      cases h2 : splitFirst sep rest with
      | none => rw [h2] at h; exact absurd h (by simp)
      | some p =>
        obtain ⟨k2, v2⟩ := p
        rw [h2] at h
        simp only [Option.some.injEq, Prod.mk.injEq] at h
        obtain ⟨hk, hv⟩ := h
        obtain ⟨hl, hm⟩ := ih k2 v2 h2
        subst hk
        refine ⟨by simp [hl, hv], ?_⟩
        simp only [List.mem_cons]
        rintro (he | hm2)
        · exact hb he.symm
        · exact hm hm2


theorem popItem_ok (size : Nat) (input : List Nat) (size2 : Nat) (k v rest : List Nat)
    (h : popItem size input = .ok (size2, k, v, rest)) :
    size2 + 4 ≤ size ∧
      ∃ len data, getString input = .ok (len, data, rest) ∧ len ≤ size ∧
        size2 = size - len ∧ data = k ++ 61 :: v ∧ ¬ 61 ∈ k := by
  cases h1 : getString input with
  | error e => simp [popItem, h1] at h
  | ok p =>
    obtain ⟨len, data, rest1⟩ := p
    simp only [popItem, h1] at h
    split at h
    · exact absurd h (by simp)
    · rename_i hsz
      cases h2 : splitFirst 61 data with
      | none => rw [h2] at h; exact absurd h (by simp)
      | some q =>
        obtain ⟨k2, v2⟩ := q
        rw [h2] at h
        simp only [Except.ok.injEq, Prod.mk.injEq] at h
        obtain ⟨hs2, hk, hv, hr⟩ := h
        obtain ⟨hd, hm⟩ := splitFirst_some 61 data k2 v2 h2
        have h4 := getString_len input len data rest1 h1
        subst hk
        subst hv
        subst hr
        refine ⟨by omega, ?_⟩
        exact ⟨len, data, rfl, by omega, by omega, hd, hm⟩

theorem popItem_append (size : Nat) (input extra : List Nat) (size2 : Nat) (k v rest : List Nat)
    (h : popItem size input = .ok (size2, k, v, rest)) :
    popItem size (input ++ extra) = .ok (size2, k, v, rest ++ extra) := by
  cases h1 : getString input with
  | error e => simp [popItem, h1] at h
  | ok p =>
    obtain ⟨len, data, rest1⟩ := p
    simp only [popItem, h1] at h
    simp only [popItem, getString_append input extra len data rest1 h1]
    split at h
    · exact absurd h (by simp)
    · rename_i hsz
      rw [if_neg hsz]
      cases h2 : splitFirst 61 data with
      | none => rw [h2] at h; exact absurd h (by simp)
      | some q =>
        obtain ⟨k2, v2⟩ := q
        rw [h2] at h
        simp only [Except.ok.injEq, Prod.mk.injEq] at h
        obtain ⟨hs2, hk, hv, hr⟩ := h
        subst hk
        subst hv
        subst hr
        simp [hs2]

theorem popItem_enc (size : Nat) (k v rest : List Nat)
    (hk : ¬ 61 ∈ k) (hv : validUtf8 (k ++ 61 :: v) = true)
    (hlen : k.length + 1 + v.length < 2 ^ 32)
    (hsz : k.length + 1 + v.length + 4 ≤ size) :
    popItem size (leBytes 4 (k ++ 61 :: v).length ++ (k ++ 61 :: v) ++ rest) =
      .ok (size - (k.length + 1 + v.length + 4), k, v, rest) := by
  have hl : (k ++ 61 :: v).length = k.length + 1 + v.length := by simp; omega
  simp only [popItem, getString_enc (k ++ 61 :: v) rest (by rw [hl]; exact hlen) hv]
  rw [if_neg (by rw [hl]; omega)]
  rw [splitFirst_enc 61 k v hk]
  rw [hl]

theorem stringSubDecode_ok (s : List Nat) (hlen : s.length < 2 ^ 32)
    (hv : validUtf8 s = true) :
    stringSubDecode s = .ok s := by
  have he := getString_enc s [] hlen hv
  rw [List.append_nil] at he
  simp [stringSubDecode, he]

theorem decodeMapLoop_fuel (f1 f2 size : Nat) (input : List Nat)
    (h1 : size ≤ f1) (h2 : size ≤ f2) :
    decodeMapLoop f1 size input = decodeMapLoop f2 size input := by
  induction f1 generalizing f2 size input with
  | zero =>
    have hz : size = 0 := by omega
    subst hz
    simp [decodeMapLoop]
  | succ f1 ih =>
    cases size with
    | zero => simp [decodeMapLoop]
    | succ s =>
      cases f2 with
      | zero => omega
      | succ g =>
        simp only [decodeMapLoop]
        cases hp : popItem (s + 1) input with
        | error e => rfl
        | ok q =>
          obtain ⟨size2, k, v, rest⟩ := q
          have hb := (popItem_ok (s + 1) input size2 k v rest hp).1
          dsimp only
          cases stringSubDecode k with
          | error e => rfl
          | ok k2 =>
            dsimp only
            cases stringSubDecode v with
            | error e => rfl
            | ok v2 =>
              dsimp only
              rw [ih g size2 rest (by omega) (by omega)]

theorem decodeMapLoop_append (f : Nat) (size : Nat) (input extra : List Nat)
    (es : List (List Nat × List Nat)) (rest : List Nat)
    (h : decodeMapLoop f size input = .ok (es, rest)) :
    decodeMapLoop f size (input ++ extra) = .ok (es, rest ++ extra) := by
  induction f generalizing size input es rest with
  | zero =>
    cases size with
    | zero =>
      simp only [decodeMapLoop, Except.ok.injEq, Prod.mk.injEq] at h
      obtain ⟨he, hr⟩ := h
      subst he
      subst hr
      simp [decodeMapLoop]
    | succ s => simp [decodeMapLoop] at h
  | succ f ih =>
    cases size with
    | zero =>
      simp only [decodeMapLoop, Except.ok.injEq, Prod.mk.injEq] at h
      obtain ⟨he, hr⟩ := h
      subst he
      subst hr
      simp [decodeMapLoop]
    | succ s =>
      simp only [decodeMapLoop] at h ⊢
      cases hp : popItem (s + 1) input with
      | error e =>
        simp only [hp] at h
        exact Except.noConfusion h
      | ok q =>
        obtain ⟨size2, k, v, rest1⟩ := q
        simp only [hp] at h
        simp only [popItem_append (s + 1) input extra size2 k v rest1 hp]
        cases hk : stringSubDecode k with
        | error e =>
          simp only [hk] at h
          exact Except.noConfusion h
        | ok k2 =>
          simp only [hk] at h ⊢
          cases hv : stringSubDecode v with
          | error e =>
            simp only [hv] at h
            exact Except.noConfusion h
          | ok v2 =>
            simp only [hv] at h ⊢
            cases hrec : decodeMapLoop f size2 rest1 with
            | error e =>
              simp only [hrec] at h
              exact Except.noConfusion h
            | ok r =>
              obtain ⟨es2, rest2⟩ := r
              simp only [hrec] at h
              simp only [ih size2 rest1 es2 rest2 hrec]
              simp only [Except.ok.injEq, Prod.mk.injEq] at h ⊢
              obtain ⟨he, hr⟩ := h
              subst he
              subst hr
              exact ⟨rfl, rfl⟩


theorem deserialize_append_aux (N : Nat) :
    ∀ t : Ty, sizeOf t ≤ N → ∀ L input v rest extra,
      deserializeTy t L input = .ok (v, rest) →
      deserializeTy t L (input ++ extra) = .ok (v, rest ++ extra) := by
  induction N with
  | zero =>
    intro t hle
    exfalso
    cases t <;> simp at hle
  | succ N ih =>
    intro t hle L input v rest extra h
    cases t with
    | bool =>
      cases input with
      | nil => simp [deserializeTy] at h
      | cons b bs =>
        simp only [deserializeTy] at h
        simp only [List.cons_append, deserializeTy]
        simp only [Except.ok.injEq, Prod.mk.injEq] at h ⊢
        obtain ⟨hv, hr⟩ := h
        subst hv; subst hr
        exact ⟨rfl, rfl⟩
    | u8 =>
      cases input with
      | nil => simp [deserializeTy] at h
      | cons b bs =>
        simp only [deserializeTy] at h
        simp only [List.cons_append, deserializeTy]
        simp only [Except.ok.injEq, Prod.mk.injEq] at h ⊢
        obtain ⟨hv, hr⟩ := h
        subst hv; subst hr
        exact ⟨rfl, rfl⟩
    | i8 =>
      cases input with
      | nil => simp [deserializeTy] at h
      | cons b bs =>
        simp only [deserializeTy] at h
        simp only [List.cons_append, deserializeTy]
        simp only [Except.ok.injEq, Prod.mk.injEq] at h ⊢
        obtain ⟨hv, hr⟩ := h
        subst hv; subst hr
        exact ⟨rfl, rfl⟩
    | u16 =>
      cases hre : readExact 2 input with
      | none => simp [deserializeTy, hre] at h
      | some p =>
        obtain ⟨bs, rest2⟩ := p
        simp only [deserializeTy, hre] at h
        simp only [deserializeTy, readExact_append 2 input extra bs rest2 hre]
        simp only [Except.ok.injEq, Prod.mk.injEq] at h ⊢
        obtain ⟨hv, hr⟩ := h
        subst hv; subst hr
        exact ⟨rfl, rfl⟩
    | u32 =>
      cases hre : readExact 4 input with
      | none => simp [deserializeTy, hre] at h
      | some p =>
        obtain ⟨bs, rest2⟩ := p
        simp only [deserializeTy, hre] at h
        simp only [deserializeTy, readExact_append 4 input extra bs rest2 hre]
        simp only [Except.ok.injEq, Prod.mk.injEq] at h ⊢
        obtain ⟨hv, hr⟩ := h
        subst hv; subst hr
        exact ⟨rfl, rfl⟩
    | u64 =>
      cases hre : readExact 8 input with
      | none => simp [deserializeTy, hre] at h
      | some p =>
        obtain ⟨bs, rest2⟩ := p
        simp only [deserializeTy, hre] at h
        simp only [deserializeTy, readExact_append 8 input extra bs rest2 hre]
        simp only [Except.ok.injEq, Prod.mk.injEq] at h ⊢
        obtain ⟨hv, hr⟩ := h
        subst hv; subst hr
        exact ⟨rfl, rfl⟩
    | i16 =>
      cases hre : readExact 2 input with
      | none => simp [deserializeTy, hre] at h
      | some p =>
        obtain ⟨bs, rest2⟩ := p
        simp only [deserializeTy, hre] at h
        simp only [deserializeTy, readExact_append 2 input extra bs rest2 hre]
        simp only [Except.ok.injEq, Prod.mk.injEq] at h ⊢
        obtain ⟨hv, hr⟩ := h
        subst hv; subst hr
        exact ⟨rfl, rfl⟩
    | i32 =>
      cases hre : readExact 4 input with
      | none => simp [deserializeTy, hre] at h
      | some p =>
        obtain ⟨bs, rest2⟩ := p
        simp only [deserializeTy, hre] at h
        simp only [deserializeTy, readExact_append 4 input extra bs rest2 hre]
        simp only [Except.ok.injEq, Prod.mk.injEq] at h ⊢
        obtain ⟨hv, hr⟩ := h
        subst hv; subst hr
        exact ⟨rfl, rfl⟩
    | i64 =>
      cases hre : readExact 8 input with
      | none => simp [deserializeTy, hre] at h
      | some p =>
        obtain ⟨bs, rest2⟩ := p
        simp only [deserializeTy, hre] at h
        simp only [deserializeTy, readExact_append 8 input extra bs rest2 hre]
        simp only [Except.ok.injEq, Prod.mk.injEq] at h ⊢
        obtain ⟨hv, hr⟩ := h
        subst hv; subst hr
        exact ⟨rfl, rfl⟩
    | f32 =>
      cases hre : readExact 4 input with
      | none => simp [deserializeTy, hre] at h
      | some p =>
        obtain ⟨bs, rest2⟩ := p
        simp only [deserializeTy, hre] at h
        simp only [deserializeTy, readExact_append 4 input extra bs rest2 hre]
        simp only [Except.ok.injEq, Prod.mk.injEq] at h ⊢
        obtain ⟨hv, hr⟩ := h
        subst hv; subst hr
        exact ⟨rfl, rfl⟩
    | f64 =>
      cases hre : readExact 8 input with
      | none => simp [deserializeTy, hre] at h
      | some p =>
        obtain ⟨bs, rest2⟩ := p
        simp only [deserializeTy, hre] at h
        simp only [deserializeTy, readExact_append 8 input extra bs rest2 hre]
        simp only [Except.ok.injEq, Prod.mk.injEq] at h ⊢
        obtain ⟨hv, hr⟩ := h
        subst hv; subst hr
        exact ⟨rfl, rfl⟩
    | str =>
      cases hg : getString input with
      | error e => simp [deserializeTy, hg] at h
      | ok p =>
        obtain ⟨len, data, rest1⟩ := p
        simp only [deserializeTy, hg] at h
        simp only [deserializeTy, getString_append input extra len data rest1 hg]
        simp only [Except.ok.injEq, Prod.mk.injEq] at h ⊢
        obtain ⟨hv, hr⟩ := h
        subst hv; subst hr
        exact ⟨rfl, rfl⟩
    | char => simp [deserializeTy] at h
    | option t' => simp [deserializeTy] at h
    | enum => simp [deserializeTy] at h
    | map =>
      simp only [deserializeTy, decodeMapEntries] at h ⊢
      cases hm : decodeMapLoop L L input with
      | error e =>
        simp only [hm] at h
        exact Except.noConfusion h
      | ok p =>
        obtain ⟨es, rest1⟩ := p
        simp only [hm] at h
        simp only [decodeMapLoop_append L L input extra es rest1 hm]
        simp only [Except.ok.injEq, Prod.mk.injEq] at h ⊢
        obtain ⟨hv, hr⟩ := h
        subst hv; subst hr
        exact ⟨rfl, rfl⟩
    | tuple ts =>
      have hts : sizeOf ts ≤ N := by
        simp only [Ty.tuple.sizeOf_spec] at hle
        omega
      have hfields : ∀ us : List Ty, sizeOf us ≤ N →
          ∀ L2 input2 vs2 rest2 extra2,
            deserializeFields us L2 input2 = .ok (vs2, rest2) →
            deserializeFields us L2 (input2 ++ extra2) = .ok (vs2, rest2 ++ extra2) := by
        intro us
        induction us with
        | nil =>
          intro _ L2 input2 vs2 rest2 extra2 h2
          simp only [deserializeFields, Except.ok.injEq, Prod.mk.injEq] at h2 ⊢
          obtain ⟨hv, hr⟩ := h2
          subst hv; subst hr
          exact ⟨rfl, rfl⟩
        | cons u us2 ihu =>
          intro hsz L2 input2 vs2 rest2 extra2 h2
          have hszu : sizeOf u ≤ N := by
            simp only [List.cons.sizeOf_spec] at hsz
            omega
          have hszus : sizeOf us2 ≤ N := by
            simp only [List.cons.sizeOf_spec] at hsz
            omega
          simp only [deserializeFields] at h2 ⊢
          cases hd : deserializeTy u L2 input2 with
          | error e =>
            simp only [hd] at h2
            exact Except.noConfusion h2
          | ok p =>
            obtain ⟨v1, rest1⟩ := p
            simp only [hd] at h2
            simp only [ih u hszu L2 input2 v1 rest1 extra2 hd]
            cases hf : deserializeFields us2 L2 rest1 with
            | error e =>
              simp only [hf] at h2
              exact Except.noConfusion h2
            | ok q =>
              obtain ⟨vs1, rest3⟩ := q
              simp only [hf] at h2
              simp only [ihu hszus L2 rest1 vs1 rest3 extra2 hf]
              simp only [Except.ok.injEq, Prod.mk.injEq] at h2 ⊢
              obtain ⟨hv, hr⟩ := h2
              subst hv; subst hr
              exact ⟨rfl, rfl⟩
      simp only [deserializeTy] at h ⊢
      cases hf : deserializeFields ts L input with
      | error e =>
        simp only [hf] at h
        exact Except.noConfusion h
      | ok p =>
        obtain ⟨vs1, rest1⟩ := p
        simp only [hf] at h
        simp only [hfields ts hts L input vs1 rest1 extra hf]
        simp only [Except.ok.injEq, Prod.mk.injEq] at h ⊢
        obtain ⟨hv, hr⟩ := h
        subst hv; subst hr
        exact ⟨rfl, rfl⟩
    | seq t' =>
      have hszt : sizeOf t' ≤ N := by
        simp only [Ty.seq.sizeOf_spec] at hle
        omega
      have helems : ∀ n L2 input2 vs2 rest2 extra2,
          deserializeElems t' n L2 input2 = .ok (vs2, rest2) →
          deserializeElems t' n L2 (input2 ++ extra2) = .ok (vs2, rest2 ++ extra2) := by
        intro n
        induction n with
        | zero =>
          intro L2 input2 vs2 rest2 extra2 h2
          simp only [deserializeElems, Except.ok.injEq, Prod.mk.injEq] at h2 ⊢
          obtain ⟨hv, hr⟩ := h2
          subst hv; subst hr
          exact ⟨rfl, rfl⟩
        | succ n ihn =>
          intro L2 input2 vs2 rest2 extra2 h2
          simp only [deserializeElems] at h2 ⊢
          cases hd : deserializeTy t' L2 input2 with
          | error e =>
            simp only [hd] at h2
            exact Except.noConfusion h2
          | ok p =>
            obtain ⟨v1, rest1⟩ := p
            simp only [hd] at h2
            simp only [ih t' hszt L2 input2 v1 rest1 extra2 hd]
            cases he : deserializeElems t' n L2 rest1 with
            | error e =>
              simp only [he] at h2
              exact Except.noConfusion h2
            | ok q =>
              obtain ⟨vs1, rest3⟩ := q
              simp only [he] at h2
              simp only [ihn L2 rest1 vs1 rest3 extra2 he]
              simp only [Except.ok.injEq, Prod.mk.injEq] at h2 ⊢
              obtain ⟨hv, hr⟩ := h2
              subst hv; subst hr
              exact ⟨rfl, rfl⟩
      cases hre : readExact 4 input with
      | none => simp [deserializeTy, hre] at h
      | some p =>
        obtain ⟨hdr, rest1⟩ := p
        simp only [deserializeTy, hre] at h
        simp only [deserializeTy, readExact_append 4 input extra hdr rest1 hre]
        cases he : deserializeElems t' (fromLE hdr) L rest1 with
        | error e =>
          simp only [he] at h
          exact Except.noConfusion h
        | ok q =>
          obtain ⟨vs1, rest2⟩ := q
          simp only [he] at h
          simp only [helems (fromLE hdr) L rest1 vs1 rest2 extra he]
          simp only [Except.ok.injEq, Prod.mk.injEq] at h ⊢
          obtain ⟨hv, hr⟩ := h
          subst hv; subst hr
          exact ⟨rfl, rfl⟩

theorem deserializeTy_append (t : Ty) (L : Nat) (input : List Nat)
    (v : Value) (rest extra : List Nat)
    (h : deserializeTy t L input = .ok (v, rest)) :
    deserializeTy t L (input ++ extra) = .ok (v, rest ++ extra) :=
  deserialize_append_aux (sizeOf t) t (Nat.le_refl _) L input v rest extra h


theorem deserialize_length_free_aux (N : Nat) :
    ∀ t : Ty, sizeOf t ≤ N → mapFree t = true → ∀ L1 L2 input,
      deserializeTy t L1 input = deserializeTy t L2 input := by
  induction N with
  | zero =>
    intro t hle
    exfalso
    cases t <;> simp at hle
  | succ N ih =>
    intro t hle hmf L1 L2 input
    cases t with
    | bool => cases input <;> simp only [deserializeTy]
    | u8 => cases input <;> simp only [deserializeTy]
    | u16 => simp only [deserializeTy]
    | u32 => simp only [deserializeTy]
    | u64 => simp only [deserializeTy]
    | i8 => cases input <;> simp only [deserializeTy]
    | i16 => simp only [deserializeTy]
    | i32 => simp only [deserializeTy]
    | i64 => simp only [deserializeTy]
    | f32 => simp only [deserializeTy]
    | f64 => simp only [deserializeTy]
    | str => simp only [deserializeTy]
    | char => simp only [deserializeTy]
    | option t' => simp only [deserializeTy]
    | enum => simp only [deserializeTy]
    | map => simp [mapFree] at hmf
    | tuple ts =>
      have hts : sizeOf ts ≤ N := by
        simp only [Ty.tuple.sizeOf_spec] at hle
        omega
      have hmfl : mapFreeList ts = true := by simpa [mapFree] using hmf
      have hfields : ∀ us : List Ty, sizeOf us ≤ N → mapFreeList us = true →
          ∀ M1 M2 input2, deserializeFields us M1 input2 = deserializeFields us M2 input2 := by
        intro us
        induction us with
        | nil => intro _ _ M1 M2 input2; simp only [deserializeFields]
        | cons u us2 ihu =>
          intro hsz hmf2 M1 M2 input2
          have hszu : sizeOf u ≤ N := by
            simp only [List.cons.sizeOf_spec] at hsz
            omega
          have hszus : sizeOf us2 ≤ N := by
            simp only [List.cons.sizeOf_spec] at hsz
            omega
          have hmfu : mapFree u = true := by
            simp only [mapFreeList, Bool.and_eq_true] at hmf2
            exact hmf2.1
          have hmfus : mapFreeList us2 = true := by
            simp only [mapFreeList, Bool.and_eq_true] at hmf2
            exact hmf2.2
          simp only [deserializeFields]
          rw [ih u hszu hmfu M1 M2 input2]
          cases hd : deserializeTy u M2 input2 with
          | error e => rfl
          | ok p =>
            obtain ⟨v1, rest1⟩ := p
            dsimp only
            rw [ihu hszus hmfus M1 M2 rest1]
      simp only [deserializeTy]
      rw [hfields ts hts hmfl L1 L2 input]
    | seq t' =>
      have hszt : sizeOf t' ≤ N := by
        simp only [Ty.seq.sizeOf_spec] at hle
        omega
      have hmft : mapFree t' = true := by simpa [mapFree] using hmf
      have helems : ∀ n M1 M2 input2,
          deserializeElems t' n M1 input2 = deserializeElems t' n M2 input2 := by
        intro n
        induction n with
        | zero => intro M1 M2 input2; simp only [deserializeElems]
        | succ n ihn =>
          intro M1 M2 input2
          simp only [deserializeElems]
          rw [ih t' hszt hmft M1 M2 input2]
          cases hd : deserializeTy t' M2 input2 with
          | error e => rfl
          | ok p =>
            obtain ⟨v1, rest1⟩ := p
            dsimp only
            rw [ihn M1 M2 rest1]
      simp only [deserializeTy]
      cases hre : readExact 4 input with
      | none => rfl
      | some p =>
        obtain ⟨hdr, rest1⟩ := p
        dsimp only
        rw [helems (fromLE hdr) L1 L2 rest1]

theorem deserializeTy_length_free (t : Ty) (hmf : mapFree t = true)
    (L1 L2 : Nat) (input : List Nat) :
    deserializeTy t L1 input = deserializeTy t L2 input :=
  deserialize_length_free_aux (sizeOf t) t (Nat.le_refl _) hmf L1 L2 input


theorem memberTyIs_eq (t : Ty) (v : Value) (h : memberTyIs t v = true) :
    memberTy v = t := by
  cases t <;> cases v <;> simp_all [memberTyIs, memberTy]

theorem getString_enc2 (s rest : List Nat) (hlen : s.length < 2 ^ 32)
    (hv : validUtf8 s = true) :
    getString (leBytes 4 s.length ++ (s ++ rest)) = .ok (s.length + 4, s, rest) := by
  have he := getString_enc s rest hlen hv
  rwa [List.append_assoc] at he

theorem member_roundtrip (v : Value) (hok : memberOk v = true) :
    ∃ bs, serializeValue v = .ok bs ∧
      ∀ L rest, deserializeTy (memberTy v) L (bs ++ rest) = .ok (v, rest) := by
  cases v with
  | bool b =>
    cases b
    · refine ⟨_, rfl, ?_⟩
      intro L rest
      simp [memberTy, deserializeTy]
    · refine ⟨_, rfl, ?_⟩
      intro L rest
      simp [memberTy, deserializeTy]
  | u8 n =>
    have hn : n < 2 ^ 8 := by simpa [memberOk] using hok
    refine ⟨_, rfl, ?_⟩
    intro L rest
    simp [memberTy, leBytes, deserializeTy, Nat.mod_eq_of_lt (show n < 256 by omega)]
  | u16 n =>
    have hn : n < 2 ^ 16 := by simpa [memberOk] using hok
    refine ⟨_, rfl, ?_⟩
    intro L rest
    simp only [memberTy, deserializeTy,
      readExact_enc 2 (leBytes 2 n) rest (leBytes_length 2 n),
      fromLE_leBytes 2 n (by norm_num; omega)]
  | u32 n =>
    have hn : n < 2 ^ 32 := by simpa [memberOk] using hok
    refine ⟨_, rfl, ?_⟩
    intro L rest
    simp only [memberTy, deserializeTy,
      readExact_enc 4 (leBytes 4 n) rest (leBytes_length 4 n),
      fromLE_leBytes 4 n (by norm_num; omega)]
  | u64 n =>
    have hn : n < 2 ^ 64 := by simpa [memberOk] using hok
    refine ⟨_, rfl, ?_⟩
    intro L rest
    simp only [memberTy, deserializeTy,
      readExact_enc 8 (leBytes 8 n) rest (leBytes_length 8 n),
      fromLE_leBytes 8 n (by norm_num; omega)]
  | i8 n =>
    have hn : -(2 ^ 7) ≤ n ∧ n < 2 ^ 7 := by simpa [memberOk] using hok
    refine ⟨_, rfl, ?_⟩
    intro L rest
    have hdec : decodeSigned 1 (encodeSignedNat 1 n) = n :=
      decodeSigned_encodeSignedNat 1 n (by omega) (by omega) (by omega)
    have henc : encodeSignedNat 1 n < 256 := by
      have := encodeSignedNat_lt 1 n
      omega
    simp [memberTy, leBytes, deserializeTy, Nat.mod_eq_of_lt henc, hdec]
  | i16 n =>
    have hn : -(2 ^ 15) ≤ n ∧ n < 2 ^ 15 := by simpa [memberOk] using hok
    refine ⟨_, rfl, ?_⟩
    intro L rest
    have hdec : decodeSigned 2 (encodeSignedNat 2 n) = n :=
      decodeSigned_encodeSignedNat 2 n (by omega) (by omega) (by omega)
    simp only [memberTy, deserializeTy,
      readExact_enc 2 (leBytes 2 (encodeSignedNat 2 n)) rest (leBytes_length 2 _),
      fromLE_leBytes 2 (encodeSignedNat 2 n) (encodeSignedNat_lt 2 n), hdec]
  | i32 n =>
    have hn : -(2 ^ 31) ≤ n ∧ n < 2 ^ 31 := by simpa [memberOk] using hok
    refine ⟨_, rfl, ?_⟩
    intro L rest
    have hdec : decodeSigned 4 (encodeSignedNat 4 n) = n :=
      decodeSigned_encodeSignedNat 4 n (by omega) (by omega) (by omega)
    simp only [memberTy, deserializeTy,
      readExact_enc 4 (leBytes 4 (encodeSignedNat 4 n)) rest (leBytes_length 4 _),
      fromLE_leBytes 4 (encodeSignedNat 4 n) (encodeSignedNat_lt 4 n), hdec]
  | i64 n =>
    have hn : -(2 ^ 63) ≤ n ∧ n < 2 ^ 63 := by simpa [memberOk] using hok
    refine ⟨_, rfl, ?_⟩
    intro L rest
    have hdec : decodeSigned 8 (encodeSignedNat 8 n) = n :=
      decodeSigned_encodeSignedNat 8 n (by omega) (by omega) (by omega)
    simp only [memberTy, deserializeTy,
      readExact_enc 8 (leBytes 8 (encodeSignedNat 8 n)) rest (leBytes_length 8 _),
      fromLE_leBytes 8 (encodeSignedNat 8 n) (encodeSignedNat_lt 8 n), hdec]
  | f32 b =>
    have hn : b < 2 ^ 32 := by simpa [memberOk] using hok
    refine ⟨_, rfl, ?_⟩
    intro L rest
    simp only [memberTy, deserializeTy,
      readExact_enc 4 (leBytes 4 b) rest (leBytes_length 4 b),
      fromLE_leBytes 4 b (by norm_num; omega)]
  | f64 b =>
    have hn : b < 2 ^ 64 := by simpa [memberOk] using hok
    refine ⟨_, rfl, ?_⟩
    intro L rest
    simp only [memberTy, deserializeTy,
      readExact_enc 8 (leBytes 8 b) rest (leBytes_length 8 b),
      fromLE_leBytes 8 b (by norm_num; omega)]
  | str s =>
    have hn : validUtf8 s = true ∧ s.length < 2 ^ 32 := by simpa [memberOk] using hok
    refine ⟨_, rfl, ?_⟩
    intro L rest
    simp only [memberTy, deserializeTy, List.append_assoc,
      getString_enc2 s rest hn.2 hn.1]
  | char c => simp [memberOk] at hok
  | none => simp [memberOk] at hok
  | some v => simp [memberOk] at hok
  | variant => simp [memberOk] at hok
  | tuple vs => simp [memberOk] at hok
  | seq o vs => simp [memberOk] at hok
  | map es => simp [memberOk] at hok

theorem fields_roundtrip (vs : List Value) (hok : vs.all memberOk = true) :
    ∃ buf, serializeList vs = .ok buf ∧
      ∀ L rest, deserializeFields (vs.map memberTy) L (buf ++ rest) = .ok (vs, rest) := by
  induction vs with
  | nil =>
    refine ⟨[], rfl, ?_⟩
    intro L rest
    simp [deserializeFields]
  | cons v vs ih =>
    have hv : memberOk v = true := by
      simp only [List.all_cons, Bool.and_eq_true] at hok
      exact hok.1
    have hvs : vs.all memberOk = true := by
      simp only [List.all_cons, Bool.and_eq_true] at hok
      exact hok.2
    obtain ⟨b, hsb, hdb⟩ := member_roundtrip v hv
    obtain ⟨buf, hsl, hdl⟩ := ih hvs
    refine ⟨b ++ buf, ?_, ?_⟩
    · simp [serializeList, hsb, hsl]
    · intro L rest
      simp only [List.map_cons, deserializeFields, List.append_assoc]
      rw [hdb L (buf ++ rest)]
      dsimp only
      rw [hdl L rest]

theorem elems_roundtrip (t : Ty) (vs : List Value) (hok : vs.all memberOk = true)
    (hty : vs.all (memberTyIs t) = true) :
    ∃ buf, serializeList vs = .ok buf ∧
      ∀ L rest, deserializeElems t vs.length L (buf ++ rest) = .ok (vs, rest) := by
  induction vs with
  | nil =>
    refine ⟨[], rfl, ?_⟩
    intro L rest
    simp [deserializeElems]
  | cons v vs ih =>
    have hv : memberOk v = true := by
      simp only [List.all_cons, Bool.and_eq_true] at hok
      exact hok.1
    have hvs : vs.all memberOk = true := by
      simp only [List.all_cons, Bool.and_eq_true] at hok
      exact hok.2
    have htv : memberTyIs t v = true := by
      simp only [List.all_cons, Bool.and_eq_true] at hty
      exact hty.1
    have htvs : vs.all (memberTyIs t) = true := by
      simp only [List.all_cons, Bool.and_eq_true] at hty
      exact hty.2
    have hteq := memberTyIs_eq t v htv
    subst hteq
    obtain ⟨b, hsb, hdb⟩ := member_roundtrip v hv
    obtain ⟨buf, hsl, hdl⟩ := ih hvs htvs
    refine ⟨b ++ buf, ?_, ?_⟩
    · simp [serializeList, hsb, hsl]
    · intro L rest
      simp only [List.length_cons, deserializeElems, List.append_assoc]
      rw [hdb L (buf ++ rest)]
      dsimp only
      rw [hdl L rest]

theorem mapEntries_roundtrip (es : List (List Nat × List Nat)) (hok : es.all entryOk = true) :
    ∀ fuel, (encodeMapEntries es).length ≤ fuel →
      ∀ rest, decodeMapLoop fuel (encodeMapEntries es).length (encodeMapEntries es ++ rest) =
        .ok (es, rest) := by
  induction es with
  | nil =>
    intro fuel _ rest
    simp [encodeMapEntries, decodeMapLoop]
  | cons e es ih =>
    obtain ⟨k, v⟩ := e
    intro fuel hf rest
    have hek : entryOk (k, v) = true := by
      simp only [List.all_cons, Bool.and_eq_true] at hok
      exact hok.1
    have hes : es.all entryOk = true := by
      simp only [List.all_cons, Bool.and_eq_true] at hok
      exact hok.2
    have hkv : validUtf8 k = true ∧ validUtf8 v = true ∧ validUtf8 (k ++ 61 :: v) = true ∧
        ¬ 61 ∈ k ∧ k.length + 1 + v.length < 2 ^ 32 := by
      simp only [entryOk, Bool.and_eq_true, Bool.not_eq_true'] at hek
      simp only [decide_eq_true_eq] at hek
      refine ⟨hek.1.1.1.1, hek.1.1.1.2, hek.1.1.2, ?_, hek.2⟩
      have hc := hek.1.2
      simpa using hc
    obtain ⟨hvk, hvv, hvkv, hmem, hlen⟩ := hkv
    have hkl : k.length < 2 ^ 32 := by omega
    have hvl : v.length < 2 ^ 32 := by omega
    have hlen_enc : (encodeMapEntries ((k, v) :: es)).length =
        k.length + 1 + v.length + 4 + (encodeMapEntries es).length := by
      simp [encodeMapEntries, leBytes_length]
      omega
    have hinput : encodeMapEntries ((k, v) :: es) ++ rest =
        leBytes 4 (k ++ 61 :: v).length ++ (k ++ 61 :: v) ++ (encodeMapEntries es ++ rest) := by
      simp [encodeMapEntries]
    have hpop := popItem_enc ((encodeMapEntries ((k, v) :: es)).length) k v
      (encodeMapEntries es ++ rest) hmem hvkv hlen (by omega)
    rw [← hinput] at hpop
    have hsub : (encodeMapEntries ((k, v) :: es)).length - (k.length + 1 + v.length + 4) =
        (encodeMapEntries es).length := by omega
    rw [hsub] at hpop
    obtain ⟨s, hs⟩ : ∃ s, (encodeMapEntries ((k, v) :: es)).length = s + 1 :=
      ⟨(encodeMapEntries ((k, v) :: es)).length - 1, by omega⟩
    obtain ⟨f, hfe⟩ : ∃ f, fuel = f + 1 := ⟨fuel - 1, by omega⟩
    subst hfe
    rw [hs] at hpop ⊢
    simp only [decodeMapLoop]
    simp only [hpop]
    simp only [stringSubDecode_ok k hkl hvk, stringSubDecode_ok v hvl hvv]
    rw [ih hes f (by omega) rest]

theorem to_vec_ok (v : Value) (bs : List Nat) :
    to_vec v = .ok bs ↔ serializeValue v = .ok bs := by
  unfold to_vec to_writer
  cases serializeValue v <;> simp

/-- Claim C1 (corrected): decode after encode returns the original value for
the class of values on which the entry points actually compose: a top-level
fixed-arity aggregate, variable-length sequence, or string map whose
members/elements are flat scalars or text. For any such value `v` (captured
by `topOk v`), `from_slice` applied to the `to_vec` output at the matching
target shape returns `v`. Top-level scalars and text, and aggregates nested
inside aggregates, do not round-trip; see the counterexample. -/
theorem c1_roundtrip_flat (v : Value) (bs : List Nat) (h1 : topOk v = true)
    (h2 : to_vec v = .ok bs) : from_slice (tyOf v) bs = .ok v := by
  have hser : serializeValue v = .ok bs := (to_vec_ok v bs).mp h2
  cases v with
  | bool b => simp [topOk] at h1
  | u8 n => simp [topOk] at h1
  | u16 n => simp [topOk] at h1
  | u32 n => simp [topOk] at h1
  | u64 n => simp [topOk] at h1
  | i8 n => simp [topOk] at h1
  | i16 n => simp [topOk] at h1
  | i32 n => simp [topOk] at h1
  | i64 n => simp [topOk] at h1
  | f32 b => simp [topOk] at h1
  | f64 b => simp [topOk] at h1
  | str s => simp [topOk] at h1
  | char c => simp [topOk] at h1
  | none => simp [topOk] at h1
  | some v2 => simp [topOk] at h1
  | variant => simp [topOk] at h1
  | tuple vs =>
    have hall : vs.all memberOk = true := by simpa [topOk] using h1
    obtain ⟨buf, hsl, hdl⟩ := fields_roundtrip vs hall
    have hbs : leBytes 4 buf.length ++ buf = bs := by
      simp only [serializeValue, hsl] at hser
      simpa using hser
    subst hbs
    simp only [from_slice, tyOf,
      readExact_enc 4 (leBytes 4 buf.length) buf (leBytes_length 4 _)]
    have hd := hdl (fromLE (leBytes 4 buf.length)) []
    rw [List.append_nil] at hd
    simp only [deserializeTy, hd]
  | seq o vs =>
    have h1s : o = Option.some vs.length ∧ vs.length < 2 ^ 32 ∧
        vs.all memberOk = true ∧
        vs.all (memberTyIs (memberTy (vs.headD (.u8 0)))) = true := by
      simp only [topOk, Bool.and_eq_true, decide_eq_true_eq] at h1
      exact ⟨h1.1.1.1, h1.1.1.2, h1.1.2, h1.2⟩
    obtain ⟨ho, hlen, hall, hhom⟩ := h1s
    subst ho
    obtain ⟨buf, hsl, hdl⟩ := elems_roundtrip (memberTy (vs.headD (.u8 0))) vs hall hhom
    have hbs : leBytes 4 (4 + buf.length) ++ (leBytes 4 vs.length ++ buf) = bs := by
      simp only [serializeValue, hsl] at hser
      simpa using hser
    subst hbs
    simp only [from_slice, tyOf,
      readExact_enc 4 (leBytes 4 (4 + buf.length)) (leBytes 4 vs.length ++ buf)
        (leBytes_length 4 _)]
    simp only [deserializeTy,
      readExact_enc 4 (leBytes 4 vs.length) buf (leBytes_length 4 _),
      fromLE_leBytes 4 vs.length (by norm_num; omega)]
    have hd := hdl (fromLE (leBytes 4 (4 + buf.length))) []
    rw [List.append_nil] at hd
    simp only [hd]
  | map es =>
    have h1m : es.all entryOk = true ∧ (encodeMapEntries es).length < 2 ^ 32 := by
      simp only [topOk, Bool.and_eq_true, decide_eq_true_eq] at h1
      exact h1
    obtain ⟨hall, hlen⟩ := h1m
    have hbs : leBytes 4 (encodeMapEntries es).length ++ encodeMapEntries es = bs := by
      simp only [serializeValue] at hser
      simpa using hser
    subst hbs
    simp only [from_slice, tyOf,
      readExact_enc 4 (leBytes 4 (encodeMapEntries es).length) (encodeMapEntries es)
        (leBytes_length 4 _),
      fromLE_leBytes 4 (encodeMapEntries es).length (by norm_num; omega)]
    have hd := mapEntries_roundtrip es hall (encodeMapEntries es).length (Nat.le_refl _) []
    rw [List.append_nil] at hd
    simp only [deserializeTy, decodeMapEntries, hd]


/-- Claim C1 counterexample: the claim as stated fails. A top-level scalar
(u8 150) encodes without an envelope but decode demands one, so decoding
the encoder's one-byte output fails; a top-level string fails too (decode
reads a second length after the envelope); and a nested tuple decodes to a
different value because the encoder writes an inner length prefix that the
decoder does not consume. -/
theorem c1_roundtrip_cex :
    to_vec (Value.u8 150) = .ok [150] ∧
    from_slice Ty.u8 [150] = .error .ioError ∧
    to_vec (Value.str [72, 105]) = .ok [2, 0, 0, 0, 72, 105] ∧
    from_slice Ty.str [2, 0, 0, 0, 72, 105] = .error .endOfBuffer ∧
    to_vec (Value.tuple [Value.tuple [.bool true, .u8 7], .bool false]) =
      .ok [7, 0, 0, 0, 2, 0, 0, 0, 1, 7, 0] ∧
    from_slice (Ty.tuple [Ty.tuple [.bool, .u8], .bool]) [7, 0, 0, 0, 2, 0, 0, 0, 1, 7, 0] =
      .ok (Value.tuple [Value.tuple [.bool true, .u8 0], .bool false]) := by
  refine ⟨rfl, rfl, rfl, ?_, rfl, ?_⟩
  · simp [from_slice, deserializeTy, getString, readExact, fromLE]
  · simp [from_slice, deserializeTy, deserializeFields, readExact, fromLE]

/-- Claim C1 witness: the flat tuple (true, 7u8, str [65]) round-trips
through `to_vec` then `from_slice`. -/
theorem c1_roundtrip_flat_witness :
    topOk (Value.tuple [.bool true, .u8 7, .str [65]]) = true ∧
    to_vec (Value.tuple [.bool true, .u8 7, .str [65]]) =
      .ok [7, 0, 0, 0, 1, 7, 1, 0, 0, 0, 65] ∧
    from_slice (tyOf (Value.tuple [.bool true, .u8 7, .str [65]]))
      [7, 0, 0, 0, 1, 7, 1, 0, 0, 0, 65] =
      .ok (Value.tuple [.bool true, .u8 7, .str [65]]) :=
  ⟨by decide, by rfl, c1_roundtrip_flat _ _ (by decide) (by rfl)⟩

/-- Claim C2 counterexample: encoding the 2-field record (bool, u8) =
(true, 7) yields [2, 0, 0, 0, 1, 7], not [1, 7]: `Compound::end` flushes
the member buffer through `serialize_bytes`, which writes a 4-byte length
prefix around the aggregate. -/
theorem c2_aggregate_cex :
    to_vec (Value.tuple [.bool true, .u8 7]) = .ok [2, 0, 0, 0, 1, 7] ∧
    to_vec (Value.tuple [.bool true, .u8 7]) ≠ .ok [1, 7] := by
  refine ⟨rfl, fun h => ?_⟩
  have h2 : (Except.ok [2, 0, 0, 0, 1, 7] : Except Err (List Nat)) = .ok [1, 7] := by
    rw [← h]
    rfl
  simp at h2

/-- Claim C2 (corrected): encoding a fixed-arity aggregate emits the
concatenation of its members' encodings in declared field order, wrapped in
a 4-byte little-endian prefix holding that concatenation's byte length; in
particular (true, 7u8) encodes to exactly [2, 0, 0, 0, 1, 7]. -/
theorem c2_aggregate_length_wrapped :
    (∀ (vs : List Value) (buf : List Nat), serializeList vs = .ok buf →
      serializeValue (.tuple vs) = .ok (leBytes 4 buf.length ++ buf)) ∧
    (∀ (v : Value) (vs : List Value) (b bs : List Nat),
      serializeValue v = .ok b → serializeList vs = .ok bs →
      serializeList (v :: vs) = .ok (b ++ bs)) ∧
    to_vec (.tuple [.bool true, .u8 7]) = .ok [2, 0, 0, 0, 1, 7] := by
  refine ⟨?_, ?_, rfl⟩
  · intro vs buf h
    simp [serializeValue, h]
  · intro v vs b bs h1 h2
    simp [serializeList, h1, h2]

/-- Claim C2 witness: the corrected statement at the concrete record
(true, 7u8) with member bytes [1, 7]. -/
theorem c2_aggregate_length_wrapped_witness :
    serializeValue (.tuple [.bool true, .u8 7]) = .ok (leBytes 4 [1, 7].length ++ [1, 7]) :=
  c2_aggregate_length_wrapped.1 [.bool true, .u8 7] [1, 7] (by rfl)

/-- Claim C3 (confirmed): the encode entry points add no leading length of
their own: `to_vec` emits exactly the structural encoding and `to_writer`
only appends it to the sink's existing content. The text bytes of the
string Hello, World! encode to exactly the 4-byte little-endian count 13
followed by the 13 UTF-8 bytes, and the empty string to [0, 0, 0, 0]. -/
theorem c3_entry_points_no_extra :
    (∀ v, to_vec v = serializeValue v) ∧
    (∀ w v, to_writer w v = Except.map (fun bs => w ++ bs) (serializeValue v)) ∧
    to_vec (.str [72, 101, 108, 108, 111, 44, 32, 87, 111, 114, 108, 100, 33]) =
      .ok [13, 0, 0, 0, 72, 101, 108, 108, 111, 44, 32, 87, 111, 114, 108, 100, 33] ∧
    to_vec (.str []) = .ok [0, 0, 0, 0] := by
  refine ⟨?_, ?_, rfl, rfl⟩
  · intro v
    unfold to_vec to_writer
    cases serializeValue v <;> simp
  · intro w v
    unfold to_writer
    cases serializeValue v <;> simp [Except.map]

/-- Claim C4 counterexample: with a declared leading length of 0, decoding
still succeeds and consumes one further byte, and the decoded value depends
on bytes beyond the declared window, so the entry points do not decode
exactly L bytes. -/
theorem c4_exact_length_cex :
    from_slice Ty.u8 [0, 0, 0, 0, 42] = .ok (.u8 42) ∧
    from_slice Ty.u8 [0, 0, 0, 0, 7] = .ok (.u8 7) := by
  constructor <;> simp [from_slice, deserializeTy, readExact, fromLE]

/-- Claim C4 (corrected): the decode entry points read one leading 4-byte
little-endian length L (failing with the propagated read error when fewer
than 4 bytes exist) and then decode the target shape from the remaining
bytes with L stored as the deserializer's length field; L is consulted only
by map decoding (for every map-free shape the result is independent of L),
and the number of bytes consumed is determined by the target shape, not
checked against L. -/
theorem c4_framing :
    (∀ (t : Ty) (L : Nat) (rest : List Nat), L < 2 ^ 32 →
      from_slice t (leBytes 4 L ++ rest) = Except.map Prod.fst (deserializeTy t L rest)) ∧
    (∀ (t : Ty) (bytes : List Nat), bytes.length < 4 →
      from_slice t bytes = .error .ioError) ∧
    (∀ t : Ty, mapFree t = true → ∀ L1 L2 input,
      deserializeTy t L1 input = deserializeTy t L2 input) := by
  refine ⟨?_, ?_, deserializeTy_length_free⟩
  · intro t L rest hL
    simp only [from_slice, readExact_enc 4 (leBytes 4 L) rest (leBytes_length 4 L),
      fromLE_leBytes 4 L (by norm_num; omega)]
    cases deserializeTy t L rest with
    | error e => simp [Except.map]
    | ok p => obtain ⟨v, r⟩ := p; simp [Except.map]
  · intro t bytes hlen
    simp only [from_slice, readExact]
    rw [if_neg (by omega)]

/-- Claim C4 witness: the framing equation at the concrete shape u16 with
L = 2 and body bytes [52, 162]. -/
theorem c4_framing_witness :
    (2 : Nat) < 2 ^ 32 ∧
    from_slice Ty.u16 (leBytes 4 2 ++ [52, 162]) =
      Except.map Prod.fst (deserializeTy Ty.u16 2 [52, 162]) :=
  ⟨by norm_num, c4_framing.1 Ty.u16 2 [52, 162] (by norm_num)⟩

/-- Claim C5 (confirmed): `pop_item` fails with BadMapEntry exactly when
the entry read by `get_string` either exceeds the remaining budget or lacks
an `=` (byte 61); on success the entry splits on the first `=` only (the
key contains no 61; any further 61 bytes stay in the value); and an entry
failure propagates as the error result of the whole map decode, whose
`Except` result by construction carries no partially populated map. -/
theorem c5_bad_map_entry (size : Nat) (input : List Nat) :
    (popItem size input = .error .badMapEntry ↔
      ∃ len data rest, getString input = .ok (len, data, rest) ∧
        (size < len ∨ ¬ 61 ∈ data)) ∧
    (∀ len data rest k v, getString input = .ok (len, data, rest) →
      splitFirst 61 data = Option.some (k, v) → ¬ size < len →
      popItem size input = .ok (size - len, k, v, rest) ∧
        data = k ++ 61 :: v ∧ ¬ 61 ∈ k) ∧
    (∀ e, size ≠ 0 → popItem size input = .error e →
      deserializeTy Ty.map size input = .error e) := by
  refine ⟨⟨?_, ?_⟩, ?_, ?_⟩
  · intro h
    cases hg : getString input with
    | error e =>
      simp only [popItem, hg, Except.error.injEq] at h
      subst h
      rcases getString_err input _ hg with h2 | h2 <;> simp at h2
    | ok p =>
      obtain ⟨len, data, rest⟩ := p
      simp only [popItem, hg] at h
      refine ⟨len, data, rest, rfl, ?_⟩
      by_cases hsz : size < len
      · exact Or.inl hsz
      · rw [if_neg hsz] at h
        cases hs : splitFirst 61 data with
        | some q =>
          obtain ⟨k2, v2⟩ := q
          rw [hs] at h
          simp at h
        | none =>
          exact Or.inr ((splitFirst_none_iff 61 data).mp hs)
  · rintro ⟨len, data, rest, hg, hcase⟩
    simp only [popItem, hg]
    rcases hcase with hsz | hnm
    · rw [if_pos hsz]
    · by_cases hsz : size < len
      · rw [if_pos hsz]
      · rw [if_neg hsz, (splitFirst_none_iff 61 data).mpr hnm]
  · intro len data rest k v hg hs hsz
    obtain ⟨hd, hm⟩ := splitFirst_some 61 data k v hs
    refine ⟨?_, hd, hm⟩
    simp only [popItem, hg, if_neg hsz, hs]
  · intro e hne hp
    obtain ⟨s, hs⟩ : ∃ s, size = s + 1 := ⟨size - 1, by omega⟩
    subst hs
    simp only [deserializeTy, decodeMapEntries, decodeMapLoop, hp]

/-- Claim C5 witness: an entry of total length 11 against a remaining
budget of 3 fails with BadMapEntry. -/
theorem c5_bad_map_entry_witness :
    popItem 3 [7, 0, 0, 0, 97, 98, 99, 61, 49, 50, 51] = .error .badMapEntry :=
  (c5_bad_map_entry 3 [7, 0, 0, 0, 97, 98, 99, 61, 49, 50, 51]).1.mpr
    ⟨11, [97, 98, 99, 61, 49, 50, 51], [], by rfl, Or.inl (by norm_num)⟩

/-- Claim C6 (confirmed): every multi-byte scalar and every length field
is written through `leBytes`, whose i-th byte is the i-th least significant
base-256 digit (little-endian), with no configuration option anywhere; in
particular the u32 value 0xCD012345 encodes to [0x45, 0x23, 0x01, 0xCD]. -/
theorem c6_little_endian :
    (∀ w n i, n < 256 ^ w → (leBytes w n).getD i 0 = n / 256 ^ i % 256) ∧
    (∀ n, serializeValue (.u16 n) = .ok (leBytes 2 n)) ∧
    (∀ n, serializeValue (.u32 n) = .ok (leBytes 4 n)) ∧
    (∀ n, serializeValue (.u64 n) = .ok (leBytes 8 n)) ∧
    (∀ n, serializeValue (.i16 n) = .ok (leBytes 2 (encodeSignedNat 2 n))) ∧
    (∀ n, serializeValue (.i32 n) = .ok (leBytes 4 (encodeSignedNat 4 n))) ∧
    (∀ n, serializeValue (.i64 n) = .ok (leBytes 8 (encodeSignedNat 8 n))) ∧
    (∀ b, serializeValue (.f32 b) = .ok (leBytes 4 b)) ∧
    (∀ b, serializeValue (.f64 b) = .ok (leBytes 8 b)) ∧
    (∀ s, serializeValue (.str s) = .ok (leBytes 4 s.length ++ s)) ∧
    to_vec (.u32 0xCD012345) = .ok [0x45, 0x23, 0x01, 0xCD] := by
  exact ⟨leBytes_getD, fun n => rfl, fun n => rfl, fun n => rfl, fun n => rfl,
    fun n => rfl, fun n => rfl, fun b => rfl, fun b => rfl, fun s => rfl, rfl⟩

/-- Claim C6 witness: the byte characterization at w = 4,
n = 0xCD012345, i = 1. -/
theorem c6_little_endian_witness :
    (0xCD012345 : Nat) < 256 ^ 4 ∧
    (leBytes 4 0xCD012345).getD 1 0 = 0xCD012345 / 256 ^ 1 % 256 :=
  ⟨by norm_num, c6_little_endian.1 4 0xCD012345 1 (by norm_num)⟩

/-- Claim C7 (confirmed): chars and sum types (Option's None and Some,
enum variants) are rejected on both sides with the distinct errors
UnsupportedCharType and UnsupportedEnumType; the encoder emits no bytes
(the error is the entire result) and the decoder's result is the error for
every input, so no bytes are consumed and nothing is coerced. -/
theorem c7_unsupported_rejected :
    (∀ c, serializeValue (.char c) = .error .unsupportedCharType) ∧
    (serializeValue .none = .error .unsupportedEnumType) ∧
    (∀ v, serializeValue (.some v) = .error .unsupportedEnumType) ∧
    (serializeValue .variant = .error .unsupportedEnumType) ∧
    (∀ L input, deserializeTy Ty.char L input = .error .unsupportedCharType) ∧
    (∀ t L input, deserializeTy (Ty.option t) L input = .error .unsupportedEnumType) ∧
    (∀ L input, deserializeTy Ty.enum L input = .error .unsupportedEnumType) := by
  refine ⟨fun c => rfl, rfl, fun v => rfl, rfl, ?_, ?_, ?_⟩
  · intro L input
    simp [deserializeTy]
  · intro t L input
    simp [deserializeTy]
  · intro L input
    simp [deserializeTy]

/-- Claim C8 (confirmed): encoding a sequence without a statically known
element count fails with VariableArraySizeAnnotation, and with a supplied
count n the 4-byte little-endian count is written ahead of the element
encodings (inside the buffer that `end` then length-prefixes). -/
theorem c8_seq_count :
    (∀ vs, serializeValue (.seq Option.none vs) = .error .variableArraySize) ∧
    (∀ (n : Nat) (vs : List Value) (buf : List Nat), serializeList vs = .ok buf →
      serializeValue (.seq (Option.some n) vs) =
        .ok (leBytes 4 (4 + buf.length) ++ (leBytes 4 n ++ buf))) := by
  refine ⟨fun vs => rfl, ?_⟩
  intro n vs buf h
  simp [serializeValue, h]

/-- Claim C8 witness: the counted encoding at the concrete sequence
[1u8, 2u8] with count 2. -/
theorem c8_seq_count_witness :
    serializeValue (.seq (Option.some 2) [.u8 1, .u8 2]) =
      .ok (leBytes 4 (4 + [1, 2].length) ++ (leBytes 4 2 ++ [1, 2])) :=
  c8_seq_count.2 2 [.u8 1, .u8 2] [1, 2] (by rfl)

/-- Claim C9 (confirmed): appending arbitrary extra bytes to an input on
which `from_slice` succeeds neither causes an error nor changes the decoded
value: the decoder only ever consumes a prefix of its input. -/
theorem c9_trailing_bytes (t : Ty) (input : List Nat) (v : Value)
    (h : from_slice t input = .ok v) (extra : List Nat) :
    from_slice t (input ++ extra) = .ok v := by
  cases h4 : readExact 4 input with
  | none => simp [from_slice, h4] at h
  | some p =>
    obtain ⟨hdr, rest⟩ := p
    simp only [from_slice, h4] at h
    simp only [from_slice, readExact_append 4 input extra hdr rest h4]
    cases hd : deserializeTy t (fromLE hdr) rest with
    | error e =>
      simp only [hd] at h
      exact Except.noConfusion h
    | ok q =>
      obtain ⟨v2, rest2⟩ := q
      simp only [hd] at h
      simp only [deserializeTy_append t (fromLE hdr) rest v2 rest2 extra hd]
      exact h

/-- Claim C9 witness: a framed bool decode still yields true after two
trailing bytes are appended. -/
theorem c9_trailing_bytes_witness :
    from_slice Ty.bool ([1, 0, 0, 0, 1] ++ [99, 100]) = .ok (.bool true) :=
  c9_trailing_bytes Ty.bool [1, 0, 0, 0, 1] (.bool true)
    (by simp [from_slice, deserializeTy, readExact, fromLE]) [99, 100]

/-- Claim C10 (confirmed): decoding a bool reads exactly one byte and
never fails on its value: byte 0 decodes to false and every nonzero byte
decodes to true (the source maps the byte through a nonzero test). -/
theorem c10_bool_decode :
    (∀ L b rest, deserializeTy Ty.bool L (b :: rest) = .ok (.bool (b != 0), rest)) ∧
    (∀ L, deserializeTy Ty.bool L [] = .error .endOfBuffer) ∧
    deserializeTy Ty.bool 0 [7] = .ok (.bool true, []) ∧
    deserializeTy Ty.bool 0 [0] = .ok (.bool false, []) := by
  refine ⟨?_, ?_, by simp [deserializeTy], by simp [deserializeTy]⟩
  · intro L b rest
    simp [deserializeTy]
  · intro L
    simp [deserializeTy]


end Rosmsg
